import Mathlib

set_option maxHeartbeats 1000000

namespace RetryModel

/-- Modelled from the spec: the three-variant Operation Outcome of one attempt
(the crate-root `OperationResult` enum used by `src/asynchronous.rs`):
`Ok(value)` for success, `Retry(error)` for a retryable failure, `Err(error)`
for a fatal failure. -/
inductive OperationResult (R E : Type) where
  | Ok : R → OperationResult R E
  | Retry : E → OperationResult R E
  | Err : E → OperationResult R E
  deriving DecidableEq

/-- Modelled from the spec: the crate-root `Error` struct returned on the
terminal failure path, carrying the last error payload, the cumulative delay
slept (in milliseconds), and the 1-based number of attempts made. -/
structure Error (E : Type) where
  error : E
  total_delay : Nat
  tries : Nat
  deriving DecidableEq

/-- Loop of `retry_with_index` from `src/asynchronous.rs`. The `Duration`
iterator is modelled as the list of millisecond values it will yield (the
iterator is exhausted when the list ends), and the `FnMut` operation as a
state-passing function receiving the current attempt number. The operation is
invoked first; the delay iterator is consulted only on a retryable failure. -/
def retryWithIndexGo {σ R E : Type} (operation : Nat → σ → OperationResult R E × σ) :
    List Nat → Nat → Nat → σ → Except (Error E) R
  | delays, current_try, total_delay, s =>
    match operation current_try s with
    | (OperationResult.Ok value, _) => Except.ok value
    | (OperationResult.Retry error, s2) =>
      match delays with
      | delay :: rest =>
        retryWithIndexGo operation rest (current_try + 1) (total_delay + delay) s2
      | [] => Except.error ⟨error, total_delay, current_try⟩
    | (OperationResult.Err error, _) => Except.error ⟨error, total_delay, current_try⟩

/-- `retry_with_index` from `src/asynchronous.rs`: `current_try` starts at 1
and `total_delay` at zero. -/
def retry_with_index {σ R E : Type} (delays : List Nat)
    (operation : Nat → σ → OperationResult R E × σ) (s : σ) : Except (Error E) R :=
  retryWithIndexGo operation delays 1 0 s

/-- `retry` from `src/asynchronous.rs`: delegates to `retry_with_index` with an
adapter closure that ignores the attempt number and invokes the same
operation. -/
def retry {σ R E : Type} (delays : List Nat) (operation : σ → OperationResult R E × σ)
    (s : σ) : Except (Error E) R :=
  retry_with_index delays (fun _ => operation) s

/-- Attempt numbers with which the loop of `retry_with_index` invokes the
operation, in order: an observation function following exactly the control flow
of `retryWithIndexGo`. -/
def retryCallsGo {σ R E : Type} (operation : Nat → σ → OperationResult R E × σ) :
    List Nat → Nat → σ → List Nat
  | delays, current_try, s =>
    match operation current_try s with
    | (OperationResult.Ok _, _) => [current_try]
    | (OperationResult.Retry _, s2) =>
      match delays with
      | _ :: rest => current_try :: retryCallsGo operation rest (current_try + 1) s2
      | [] => [current_try]
    | (OperationResult.Err _, _) => [current_try]

/-- Attempt numbers with which `retry_with_index delays operation s` invokes
the operation, in order. -/
def retryCalls {σ R E : Type} (delays : List Nat)
    (operation : Nat → σ → OperationResult R E × σ) (s : σ) : List Nat :=
  retryCallsGo operation delays 1 s

/-- The operation reports a retryable failure, with error payload `errF i`, on
each of the `k + 1` attempts `t, t + 1, ..., t + k`, threading its internal
state starting from `s`. -/
def allRetry {σ R E : Type} (operation : Nat → σ → OperationResult R E × σ)
    (errF : Nat → E) : Nat → σ → Nat → Prop
  | t, s, 0 => (operation t s).1 = OperationResult.Retry (errF t)
  | t, s, k + 1 =>
    (operation t s).1 = OperationResult.Retry (errF t) ∧
      allRetry operation errF (t + 1) (operation t s).2 k

/-- The operation reports retryable failures on the `k` attempts
`t, ..., t + k - 1` and a fatal failure with error payload `e` on attempt
`t + k`, threading its internal state starting from `s`. -/
def retryThenFatal {σ R E : Type} (operation : Nat → σ → OperationResult R E × σ)
    (e : E) : Nat → σ → Nat → Prop
  | t, s, 0 => (operation t s).1 = OperationResult.Err e
  | t, s, k + 1 =>
    (∃ e2, (operation t s).1 = OperationResult.Retry e2) ∧
      retryThenFatal operation e (t + 1) (operation t s).2 k

/-- The saturation value `u64::MAX` used by `src/delay.rs`. -/
def U64_MAX : Nat := 2 ^ 64 - 1

/-- Model of `u64::checked_mul`: `none` exactly when the product overflows. -/
def checked_mul (a b : Nat) : Option Nat :=
  if a * b ≤ U64_MAX then some (a * b) else none

/-- Model of `u64::checked_add`: `none` exactly when the sum overflows. -/
def checked_add (a b : Nat) : Option Nat :=
  if a + b ≤ U64_MAX then some (a + b) else none

/-- `Exponential` from `src/delay.rs` (both fields are millisecond values). -/
structure Exponential where
  base : Nat
  current : Nat
  deriving DecidableEq

/-- `Exponential::from_millis` from `src/delay.rs`. -/
def Exponential.from_millis (base : Nat) : Exponential :=
  { base := base, current := base }

/-- `Iterator::next` for `Exponential` from `src/delay.rs` (the source always
returns `Some`): yields the current value in milliseconds and the successor
state; the multiplication saturates at `u64::MAX` on overflow. -/
def Exponential.next (e : Exponential) : Nat × Exponential :=
  match checked_mul e.current e.base with
  | some nxt => (e.current, { base := e.base, current := nxt })
  | none => (e.current, { base := e.base, current := U64_MAX })

/-- Value, in milliseconds, of the `n`-th pull (0-indexed) of an `Exponential`
iterator. -/
def Exponential.nthPull (e : Exponential) : Nat → Nat
  | 0 => e.next.1
  | n + 1 => e.next.2.nthPull n

/-- `Fibonacci` from `src/delay.rs` (both fields are millisecond values). -/
structure Fibonacci where
  curr : Nat
  next : Nat
  deriving DecidableEq

/-- `Fibonacci::from_millis` from `src/delay.rs`. -/
def Fibonacci.from_millis (millis : Nat) : Fibonacci :=
  { curr := millis, next := millis }

/-- `Iterator::next` for `Fibonacci` from `src/delay.rs` (named `step` because
the struct field `next` already takes that name; the source always returns
`Some`): yields `curr` in milliseconds and the successor state; the sum
saturates at `u64::MAX` on overflow, in which case `curr` still becomes the old
`next`. -/
def Fibonacci.step (f : Fibonacci) : Nat × Fibonacci :=
  match checked_add f.curr f.next with
  | some next_next => (f.curr, { curr := f.next, next := next_next })
  | none => (f.curr, { curr := f.next, next := U64_MAX })

/-- Value, in milliseconds, of the `n`-th pull (0-indexed) of a `Fibonacci`
iterator. -/
def Fibonacci.nthPull (f : Fibonacci) : Nat → Nat
  | 0 => f.step.1
  | n + 1 => f.step.2.nthPull n

/-- Model of `rand::distr::Uniform<u64>`, represented by its inclusive support
interval `[lo, hi]`. -/
structure Uniform where
  lo : Nat
  hi : Nat
  deriving DecidableEq

/-- Model of `Uniform::new(low, high)` from the `rand` crate (half-open sample
range `[low, high)`): returns an error precisely when `low >= high`. -/
def Uniform.new (low high : Nat) : Option Uniform :=
  if low < high then some { lo := low, hi := high - 1 } else none

/-- Model of `Uniform::new_inclusive(low, high)` from the `rand` crate (closed
sample range `[low, high]`): returns an error precisely when `low > high`. -/
def Uniform.new_inclusive (low high : Nat) : Option Uniform :=
  if low ≤ high then some { lo := low, hi := high } else none

/-- Model of drawing one sample from a `Uniform` distribution: the random
source is abstracted as the natural number `r`, and the sample is the element
of the support interval selected by `r`; every sample lies in `[lo, hi]`, and
when `lo = hi` the sample is that single value whatever `r` is. -/
def Uniform.sample (u : Uniform) (r : Nat) : Nat :=
  u.lo + r % (u.hi - u.lo + 1)

/-- `Range` from `src/delay.rs`; the thread-local random generator handle is
supplied per pull as the argument of `Range.next`. -/
structure Range where
  distribution : Uniform
  deriving DecidableEq

/-- `Range::from_millis_exclusive` from `src/delay.rs`: the `none` result
models the `expect` panic on invalid inputs, a synchronous construction-time
failure. -/
def Range.from_millis_exclusive (minimum maximum : Nat) : Option Range :=
  (Uniform.new minimum maximum).map (fun d => { distribution := d })

/-- `Range::from_millis_inclusive` from `src/delay.rs`: the `none` result
models the `expect` panic on invalid inputs, a synchronous construction-time
failure. -/
def Range.from_millis_inclusive (minimum maximum : Nat) : Option Range :=
  (Uniform.new_inclusive minimum maximum).map (fun d => { distribution := d })

/-- `Iterator::next` for `Range` from `src/delay.rs` (the source always returns
`Some`): samples the stored distribution, with the random draw modelled by
`r`. -/
def Range.next (rg : Range) (r : Nat) : Nat :=
  rg.distribution.sample r

/-- Concrete operation for witnesses: reports a retryable failure on every
attempt, with the attempt number as error payload. -/
def opAlwaysRetry : Nat → Unit → OperationResult Nat Nat × Unit :=
  fun i _ => (OperationResult.Retry i, ())

/-- Concrete operation for witnesses: retryable failure on attempt 1, fatal
failure (payload 9) on every later attempt. -/
def opRetryOnceThenFatal : Nat → Unit → OperationResult Nat Nat × Unit :=
  fun i _ => (if i = 1 then OperationResult.Retry 0 else OperationResult.Err 9, ())

/-- Concrete operation for witnesses: fatal failure (payload 5) on every
attempt. -/
def opAlwaysFatal : Nat → Unit → OperationResult Nat Nat × Unit :=
  fun _ _ => (OperationResult.Err 5, ())

/-- Concrete operation for witnesses: succeeds immediately with value 42. -/
def opImmediateOk : Nat → Unit → OperationResult Nat Nat × Unit :=
  fun _ _ => (OperationResult.Ok 42, ())

/-- Concrete index-free operation for witnesses: succeeds immediately with
value 42. -/
def opPlainOk : Unit → OperationResult Nat Nat × Unit :=
  fun u => (OperationResult.Ok 42, u)

theorem go_all_retry {σ R E : Type} (op : Nat → σ → OperationResult R E × σ)
    (errF : Nat → E) :
    ∀ (delays : List Nat) (t td : Nat) (s : σ),
      allRetry op errF t s delays.length →
      retryWithIndexGo op delays t td s =
        Except.error ⟨errF (t + delays.length), td + delays.sum, t + delays.length⟩ := by
  intro delays
  induction delays with
  | nil =>
    intro t td s h
    have h1 : (op t s).1 = OperationResult.Retry (errF t) := h
    rcases hop : op t s with ⟨o, s2⟩
    rw [hop] at h1
    simp only at h1
    subst h1
    rw [retryWithIndexGo, hop]
    simp
  | cons d rest ih =>
    intro t td s h
    have h' : (op t s).1 = OperationResult.Retry (errF t) ∧
        allRetry op errF (t + 1) (op t s).2 rest.length := h
    rcases hop : op t s with ⟨o, s2⟩
    rw [hop] at h'
    obtain ⟨h1, h2⟩ := h'
    simp only at h1 h2
    subst h1
    rw [retryWithIndexGo, hop]
    simp only
    rw [ih (t + 1) (td + d) s2 h2]
    have e1 : t + 1 + rest.length = t + (d :: rest).length := by
      simp [List.length_cons]; omega
    have e2 : td + d + rest.sum = td + (d :: rest).sum := by
      simp [List.sum_cons]; omega
    rw [e1, e2]

theorem go_retry_then_fatal {σ R E : Type} (op : Nat → σ → OperationResult R E × σ)
    (e : E) :
    ∀ (ds rest : List Nat) (t td : Nat) (s : σ),
      retryThenFatal op e t s ds.length →
      retryWithIndexGo op (ds ++ rest) t td s =
        Except.error ⟨e, td + ds.sum, t + ds.length⟩ := by
  intro ds
  induction ds with
  | nil =>
    intro rest t td s h
    have h1 : (op t s).1 = OperationResult.Err e := h
    rcases hop : op t s with ⟨o, s2⟩
    rw [hop] at h1
    simp only at h1
    subst h1
    rw [List.nil_append, retryWithIndexGo, hop]
    simp
  | cons d ds' ih =>
    intro rest t td s h
    have h' : (∃ e2, (op t s).1 = OperationResult.Retry e2) ∧
        retryThenFatal op e (t + 1) (op t s).2 ds'.length := h
    rcases hop : op t s with ⟨o, s2⟩
    rw [hop] at h'
    obtain ⟨⟨e2, h1⟩, h2⟩ := h'
    simp only at h1 h2
    subst h1
    rw [List.cons_append, retryWithIndexGo, hop]
    simp only
    rw [ih rest (t + 1) (td + d) s2 h2]
    have e1 : t + 1 + ds'.length = t + (d :: ds').length := by
      simp [List.length_cons]; omega
    have e2' : td + d + ds'.sum = td + (d :: ds').sum := by
      simp [List.sum_cons]; omega
    rw [e1, e2']

theorem retryCallsGo_range {σ R E : Type} (op : Nat → σ → OperationResult R E × σ) :
    ∀ (delays : List Nat) (t : Nat) (s : σ),
      retryCallsGo op delays t s = List.range' t (retryCallsGo op delays t s).length := by
  intro delays
  induction delays with
  | nil =>
    intro t s
    rcases hop : op t s with ⟨o, s2⟩
    cases o <;> rw [retryCallsGo, hop] <;> rfl
  | cons d rest ih =>
    intro t s
    rcases hop : op t s with ⟨o, s2⟩
    cases o <;> rw [retryCallsGo, hop] <;> try rfl
    case Retry e =>
      simp only [List.length_cons]
      rw [List.range'_succ]
      exact congrArg (t :: ·) (ih (t + 1) s2)

theorem go_err_shape {σ R E : Type} (op : Nat → σ → OperationResult R E × σ) :
    ∀ (delays : List Nat) (t td : Nat) (s : σ) (err : Error E),
      retryWithIndexGo op delays t td s = Except.error err →
      ∃ k, k ≤ delays.length ∧ err.tries = t + k ∧
        err.total_delay = td + (delays.take k).sum ∧
        (retryCallsGo op delays t s).length = k + 1 := by
  intro delays
  induction delays with
  | nil =>
    intro t td s err h
    rcases hop : op t s with ⟨o, s2⟩
    rw [retryWithIndexGo, hop] at h
    cases o with
    | Ok v => simp at h
    | Retry e =>
      simp only [Except.error.injEq] at h
      subst h
      exact ⟨0, by simp [retryCallsGo, hop]⟩
    | Err e =>
      simp only [Except.error.injEq] at h
      subst h
      exact ⟨0, by simp [retryCallsGo, hop]⟩
  | cons d rest ih =>
    intro t td s err h
    rcases hop : op t s with ⟨o, s2⟩
    rw [retryWithIndexGo, hop] at h
    cases o with
    | Ok v => simp at h
    | Retry e =>
      simp only at h
      obtain ⟨k, hk, htries, hdelay, hcalls⟩ := ih (t + 1) (td + d) s2 err h
      refine ⟨k + 1, by simp [List.length_cons]; omega, by omega, ?_, ?_⟩
      · rw [List.take_succ_cons, List.sum_cons]
        omega
      · rw [retryCallsGo, hop]
        simp only [List.length_cons]
        omega
    | Err e =>
      simp only [Except.error.injEq] at h
      subst h
      exact ⟨0, by simp [retryCallsGo, hop]⟩

/-- C1: with a delay sequence yielding exactly one delay `d` and an operation
reporting a retryable failure on both attempts, `retry_with_index` (and
`retry`) performs exactly 2 attempts and returns the error of the second
attempt with `tries = 2` and `total_delay = d`; in general, an operation that
reports a retryable failure on every attempt makes the engine exhaust the
sequence and return the error of the last attempt, with `tries` equal to the
attempt count `delays.length + 1` and `total_delay` the sum of all delays. -/
theorem c1_exhaustion {σ R E : Type} :
    (∀ (d : Nat) (op : Nat → σ → OperationResult R E × σ) (s : σ) (e1 e2 : E),
      (op 1 s).1 = OperationResult.Retry e1 →
      (op 2 (op 1 s).2).1 = OperationResult.Retry e2 →
      retry_with_index [d] op s = Except.error ⟨e2, d, 2⟩) ∧
    (∀ (d : Nat) (operation : σ → OperationResult R E × σ) (s : σ) (e1 e2 : E),
      (operation s).1 = OperationResult.Retry e1 →
      (operation (operation s).2).1 = OperationResult.Retry e2 →
      retry [d] operation s = Except.error ⟨e2, d, 2⟩) ∧
    (∀ (delays : List Nat) (op : Nat → σ → OperationResult R E × σ) (s : σ)
      (errF : Nat → E),
      allRetry op errF 1 s delays.length →
      retry_with_index delays op s =
        Except.error ⟨errF (delays.length + 1), delays.sum, delays.length + 1⟩) := by
  have main : ∀ (d : Nat) (op : Nat → σ → OperationResult R E × σ) (s : σ) (e1 e2 : E),
      (op 1 s).1 = OperationResult.Retry e1 →
      (op 2 (op 1 s).2).1 = OperationResult.Retry e2 →
      retry_with_index [d] op s = Except.error ⟨e2, d, 2⟩ := by
    intro d op s e1 e2 h1 h2
    have hall : allRetry op (fun i => if i = 1 then e1 else e2) 1 s 1 := by
      refine ⟨by simpa using h1, ?_⟩
      show (op 2 (op 1 s).2).1 = OperationResult.Retry (if 2 = 1 then e1 else e2)
      simpa using h2
    have h := go_all_retry op (fun i => if i = 1 then e1 else e2) [d] 1 0 s
      (by simpa using hall)
    rw [retry_with_index, h]
    norm_num
  refine ⟨main, fun d operation s e1 e2 h1 h2 => main d (fun _ => operation) s e1 e2 h1 h2, ?_⟩
  intro delays op s errF h
  rw [retry_with_index, go_all_retry op errF delays 1 0 s h]
  have e1 : 1 + delays.length = delays.length + 1 := by omega
  rw [e1, Nat.zero_add]

/-- C1 witness: a delay list of exactly one delay (4 ms) with an operation that
always reports a retryable failure, and a two-delay run of the general
exhaustion statement. -/
theorem c1_exhaustion_witness :
    retry_with_index [4] opAlwaysRetry () = Except.error ⟨2, 4, 2⟩ ∧
    retry_with_index [4, 6] opAlwaysRetry () = Except.error ⟨3, 10, 3⟩ := by
  refine ⟨c1_exhaustion.1 4 opAlwaysRetry () 1 2 rfl rfl, ?_⟩
  have h := c1_exhaustion.2.2 [4, 6] opAlwaysRetry () (fun i => i) ⟨rfl, rfl, rfl⟩
  simpa using h

/-- C2: an operation whose attempts are retryable failures followed by a fatal
failure makes `retry_with_index` return that fatal error immediately, with the
remaining delay-sequence elements never pulled (the result is the same for
every `rest`); a fatal failure on the first attempt yields `tries = 1` and zero
total delay whatever the delay sequence still holds. -/
theorem c2_fatal_short_circuit {σ R E : Type} :
    (∀ (ds rest : List Nat) (op : Nat → σ → OperationResult R E × σ) (s : σ) (e : E),
      retryThenFatal op e 1 s ds.length →
      retry_with_index (ds ++ rest) op s =
        Except.error ⟨e, ds.sum, ds.length + 1⟩) ∧
    (∀ (delays : List Nat) (op : Nat → σ → OperationResult R E × σ) (s : σ) (e : E),
      (op 1 s).1 = OperationResult.Err e →
      retry_with_index delays op s = Except.error ⟨e, 0, 1⟩) := by
  have main : ∀ (ds rest : List Nat) (op : Nat → σ → OperationResult R E × σ) (s : σ) (e : E),
      retryThenFatal op e 1 s ds.length →
      retry_with_index (ds ++ rest) op s =
        Except.error ⟨e, ds.sum, ds.length + 1⟩ := by
    intro ds rest op s e h
    rw [retry_with_index, go_retry_then_fatal op e ds rest 1 0 s h]
    have e1 : 1 + ds.length = ds.length + 1 := by omega
    rw [e1, Nat.zero_add]
  refine ⟨main, fun delays op s e h => ?_⟩
  have h0 := main [] delays op s e h
  simpa using h0

/-- C2 witness: a retryable then a fatal attempt against the delay list
`[3] ++ [7, 8]` stops after the second attempt with `total_delay = 3`, and an
immediately fatal operation against `[9]` stops at `tries = 1` with zero
delay. -/
theorem c2_fatal_short_circuit_witness :
    retry_with_index ([3] ++ [7, 8]) opRetryOnceThenFatal () = Except.error ⟨9, 3, 2⟩ ∧
    retry_with_index [9] opAlwaysFatal () = Except.error ⟨5, 0, 1⟩ := by
  constructor
  · have h := c2_fatal_short_circuit.1 [3] [7, 8] opRetryOnceThenFatal () 9 ⟨⟨0, rfl⟩, rfl⟩
    simpa using h
  · exact c2_fatal_short_circuit.2 [9] opAlwaysFatal () 5 rfl

/-- C3: the attempt numbers passed to the operation form the sequence
`1, 2, 3, ...` (each retry increments by exactly 1), and on any terminating
failure `tries` equals the number of attempts made (the length of the call
trace), which is the number `k` of delays consumed plus 1, while `total_delay`
is the sum of those first `k` delays. -/
theorem c3_attempt_invariants {σ R E : Type} :
    ∀ (delays : List Nat) (op : Nat → σ → OperationResult R E × σ) (s : σ),
      retryCalls delays op s = List.range' 1 (retryCalls delays op s).length ∧
      ∀ err, retry_with_index delays op s = Except.error err →
        ∃ k, k ≤ delays.length ∧ err.tries = k + 1 ∧
          err.total_delay = (delays.take k).sum ∧
          (retryCalls delays op s).length = k + 1 := by
  intro delays op s
  refine ⟨retryCallsGo_range op delays 1 s, fun err h => ?_⟩
  obtain ⟨k, hk, ht, hd, hc⟩ := go_err_shape op delays 1 0 s err h
  exact ⟨k, hk, by omega, by omega, hc⟩

/-- C3 witness: one delay of 5 ms with an always-retrying operation: the call
trace is `[1, 2]` and the resulting error has `tries = 2 = 1 + 1` with
`total_delay = 5`. -/
theorem c3_attempt_invariants_witness :
    retryCalls [5] opAlwaysRetry () = List.range' 1 (retryCalls [5] opAlwaysRetry ()).length ∧
    ∃ k, k ≤ ([5] : List Nat).length ∧ (2 : Nat) = k + 1 ∧
      (5 : Nat) = (([5] : List Nat).take k).sum ∧
      (retryCalls [5] opAlwaysRetry ()).length = k + 1 := by
  have h := c3_attempt_invariants [5] opAlwaysRetry ()
  refine ⟨h.1, ?_⟩
  have h2 := h.2 ⟨2, 5, 2⟩ rfl
  simpa using h2

/-- C7: an operation that succeeds on the first attempt makes
`retry_with_index` (and `retry`) return `Ok` after exactly one invocation (the
call trace is `[1]`), for every delay sequence, with no element pulled. -/
theorem c7_first_attempt_success {σ R E : Type} :
    (∀ (delays : List Nat) (op : Nat → σ → OperationResult R E × σ) (s : σ) (v : R),
      (op 1 s).1 = OperationResult.Ok v →
      retry_with_index delays op s = Except.ok v ∧ retryCalls delays op s = [1]) ∧
    (∀ (delays : List Nat) (operation : σ → OperationResult R E × σ) (s : σ) (v : R),
      (operation s).1 = OperationResult.Ok v →
      retry delays operation s = Except.ok v) := by
  have main : ∀ (delays : List Nat) (op : Nat → σ → OperationResult R E × σ) (s : σ) (v : R),
      (op 1 s).1 = OperationResult.Ok v →
      retry_with_index delays op s = Except.ok v ∧ retryCalls delays op s = [1] := by
    intro delays op s v h
    rcases hop : op 1 s with ⟨o, s1⟩
    rw [hop] at h
    simp only at h
    subst h
    constructor
    · rw [retry_with_index, retryWithIndexGo, hop]
    · rw [retryCalls, retryCallsGo, hop]
  exact ⟨main, fun delays operation s v h => (main delays (fun _ => operation) s v h).1⟩

/-- C7 witness: an immediately successful operation against the delay list
`[1, 2]` returns `Ok 42` with call trace `[1]`, through both entry points. -/
theorem c7_first_attempt_success_witness :
    retry_with_index [1, 2] opImmediateOk () = Except.ok 42 ∧
    retryCalls [1, 2] opImmediateOk () = [1] ∧
    retry [1, 2] opPlainOk () = Except.ok 42 := by
  refine ⟨(c7_first_attempt_success.1 [1, 2] opImmediateOk () 42 rfl).1,
    (c7_first_attempt_success.1 [1, 2] opImmediateOk () 42 rfl).2,
    c7_first_attempt_success.2 [1, 2] opPlainOk () 42 rfl⟩

/-- C9: `retry` returns exactly the result of `retry_with_index` run on an
adapter operation that ignores the supplied attempt number and invokes the same
operation — the two entry points are one identical algorithm differing only in
whether the attempt number is passed on. -/
theorem c9_retry_delegates {σ R E : Type} (delays : List Nat)
    (operation : σ → OperationResult R E × σ) (s : σ) :
    retry delays operation s = retry_with_index delays (fun _ => operation) s := rfl

theorem Exponential.next_fst (e : Exponential) : e.next.1 = e.current := by
  rw [Exponential.next]
  cases checked_mul e.current e.base <;> rfl

theorem expo_step (base j : Nat) :
    (Exponential.next { base := base, current := min (base ^ (j + 1)) U64_MAX }).2 =
      { base := base, current := min (base ^ (j + 2)) U64_MAX } := by
  have hmax1 : 1 ≤ U64_MAX := by norm_num [U64_MAX]
  by_cases hle : base ^ (j + 1) ≤ U64_MAX
  · rw [min_eq_left hle, Exponential.next, checked_mul]
    simp only
    by_cases h2 : base ^ (j + 1) * base ≤ U64_MAX
    · rw [if_pos h2]
      simp only
      rw [← pow_succ] at h2 ⊢
      rw [min_eq_left h2]
    · rw [if_neg h2]
      simp only
      rw [← pow_succ] at h2
      rw [min_eq_right (le_of_lt (lt_of_not_le h2))]
  · have hlt : U64_MAX < base ^ (j + 1) := lt_of_not_le hle
    have hb2 : 2 ≤ base := by
      by_contra hb
      have hb1 : base ≤ 1 := by omega
      have : base ^ (j + 1) ≤ 1 := by
        calc base ^ (j + 1) ≤ 1 ^ (j + 1) := Nat.pow_le_pow_left hb1 _
        _ = 1 := one_pow _
      omega
    rw [min_eq_right (le_of_lt hlt), Exponential.next, checked_mul]
    have hmul : ¬ U64_MAX * base ≤ U64_MAX := by
      have : U64_MAX * 2 ≤ U64_MAX * base := Nat.mul_le_mul_left _ hb2
      omega
    rw [if_neg hmul]
    simp only
    have : U64_MAX < base ^ (j + 2) := by
      have hmono : base ^ (j + 1) ≤ base ^ (j + 2) :=
        Nat.pow_le_pow_right (by omega) (by omega)
      omega
    rw [min_eq_right (le_of_lt this)]

theorem expo_nthPull (base : Nat) :
    ∀ (n j : Nat),
      Exponential.nthPull { base := base, current := min (base ^ (j + 1)) U64_MAX } n =
        min (base ^ (n + j + 1)) U64_MAX := by
  intro n
  induction n with
  | zero =>
    intro j
    rw [Exponential.nthPull, Exponential.next_fst]
    simp
  | succ n ih =>
    intro j
    rw [Exponential.nthPull, expo_step base j, ih (j + 1)]
    have : n + (j + 1) + 1 = n + 1 + j + 1 := by omega
    rw [this]

/-- C4: for every u64 `base`, the `n`-th pull (0-indexed) of
`Exponential::from_millis(base)` is `base^(n+1)` milliseconds as long as that
power is representable in u64; once the running value would overflow it
saturates, and every further pull equals `u64::MAX` milliseconds (the iterator
never wraps and never fails). -/
theorem c4_exponential (base n : Nat) (hb : base ≤ U64_MAX) :
    Exponential.nthPull (Exponential.from_millis base) n = min (base ^ (n + 1)) U64_MAX ∧
    (base ^ (n + 1) ≤ U64_MAX →
      Exponential.nthPull (Exponential.from_millis base) n = base ^ (n + 1)) ∧
    (U64_MAX < base ^ (n + 1) →
      Exponential.nthPull (Exponential.from_millis base) n = U64_MAX) := by
  have h0 : Exponential.from_millis base =
      { base := base, current := min (base ^ (0 + 1)) U64_MAX } := by
    rw [Exponential.from_millis]
    simp [min_eq_left hb]
  have hmain : Exponential.nthPull (Exponential.from_millis base) n =
      min (base ^ (n + 1)) U64_MAX := by
    rw [h0, expo_nthPull base n 0]
  exact ⟨hmain, fun h => by rw [hmain, min_eq_left h],
    fun h => by rw [hmain, min_eq_right (le_of_lt h)]⟩

/-- C4 witness: for base 10, pull 3 is `10^4` (no overflow yet) and pull 19 is
saturated at `u64::MAX`, since `10^20 > 2^64 - 1`. -/
theorem c4_exponential_witness :
    (Exponential.nthPull (Exponential.from_millis 10) 3 = min (10 ^ 4) U64_MAX ∧
      (10 ^ 4 ≤ U64_MAX → Exponential.nthPull (Exponential.from_millis 10) 3 = 10 ^ 4) ∧
      (U64_MAX < 10 ^ 4 → Exponential.nthPull (Exponential.from_millis 10) 3 = U64_MAX)) ∧
    (U64_MAX < 10 ^ (19 + 1) ∧
      Exponential.nthPull (Exponential.from_millis 10) 19 = U64_MAX) := by
  refine ⟨c4_exponential 10 3 (by norm_num [U64_MAX]), by norm_num [U64_MAX], ?_⟩
  exact (c4_exponential 10 19 (by norm_num [U64_MAX])).2.2 (by norm_num [U64_MAX])

theorem Fibonacci.step_fst (f : Fibonacci) : f.step.1 = f.curr := by
  rw [Fibonacci.step]
  cases checked_add f.curr f.next <;> rfl

theorem fib_step_no_overflow (c n : Nat) (h : c + n ≤ U64_MAX) :
    Fibonacci.step { curr := c, next := n } = (c, { curr := n, next := c + n }) := by
  rw [Fibonacci.step, checked_add]
  simp [h]

theorem fib_step_overflow (c n : Nat) (h : U64_MAX < c + n) :
    Fibonacci.step { curr := c, next := n } = (c, { curr := n, next := U64_MAX }) := by
  rw [Fibonacci.step, checked_add]
  have hc : ({ curr := c, next := n } : Fibonacci).curr +
      ({ curr := c, next := n } : Fibonacci).next = c + n := rfl
  rw [hc, if_neg (by omega)]

theorem fib_saturated_pull :
    ∀ m, Fibonacci.nthPull { curr := U64_MAX, next := U64_MAX } m = U64_MAX := by
  have hmax1 : 1 ≤ U64_MAX := by norm_num [U64_MAX]
  have hstep : Fibonacci.step { curr := U64_MAX, next := U64_MAX } =
      (U64_MAX, { curr := U64_MAX, next := U64_MAX }) :=
    fib_step_overflow U64_MAX U64_MAX (by omega)
  intro m
  induction m with
  | zero => rw [Fibonacci.nthPull, hstep]
  | succ m ih => rw [Fibonacci.nthPull, hstep]; exact ih

theorem fib_second_state (c n : Nat) (hover : U64_MAX < c + n) :
    (Fibonacci.step (Fibonacci.step { curr := c, next := n }).2).2 =
      { curr := U64_MAX, next := U64_MAX } := by
  rw [fib_step_overflow c n hover]
  simp only
  by_cases hn : n + U64_MAX ≤ U64_MAX
  · have hn0 : n = 0 := by omega
    rw [fib_step_no_overflow n U64_MAX hn]
    simp [hn0]
  · rw [fib_step_overflow n U64_MAX (by omega)]

/-- C5 counterexample: for seed `2^63` the very first advance overflows (the
sum `2^63 + 2^63` exceeds `u64::MAX`), so `next` saturates at `u64::MAX`, yet
the immediately following pull yields `2^63`, not the saturated value — the
claim that all further pulls yield the saturated value is false. -/
theorem c5_saturation_counterexample :
    U64_MAX < 2 ^ 63 + 2 ^ 63 ∧
    ((Fibonacci.from_millis (2 ^ 63)).step.2).next = U64_MAX ∧
    Fibonacci.nthPull (Fibonacci.from_millis (2 ^ 63)) 1 = 2 ^ 63 ∧
    2 ^ 63 ≠ U64_MAX := by
  refine ⟨by decide, ?_, by decide, by decide⟩
  decide

/-- C5 (amended): `Fibonacci::from_millis(seed)` initializes `(curr, next)`
both to `seed`; a pull yields `curr` and advances `(curr, next)` to
`(next, curr + next)`; when the sum overflows u64, `curr` still becomes the old
`next` while the new `next` saturates at `u64::MAX`, so the pull immediately
after the overflowing advance yields the old `next`, and every pull after that
yields the saturated value repeatedly. -/
theorem c5_fibonacci_saturation (seed : Nat) :
    Fibonacci.from_millis seed = { curr := seed, next := seed } ∧
    (∀ c n : Nat, c + n ≤ U64_MAX →
      Fibonacci.step { curr := c, next := n } = (c, { curr := n, next := c + n })) ∧
    (∀ c n : Nat, U64_MAX < c + n →
      Fibonacci.step { curr := c, next := n } = (c, { curr := n, next := U64_MAX })) ∧
    (∀ c n : Nat, U64_MAX < c + n →
      Fibonacci.nthPull { curr := c, next := n } 0 = c ∧
      Fibonacci.nthPull { curr := c, next := n } 1 = n ∧
      ∀ j, 2 ≤ j → Fibonacci.nthPull { curr := c, next := n } j = U64_MAX) := by
  refine ⟨rfl, fib_step_no_overflow, fib_step_overflow, ?_⟩
  intro c n hover
  refine ⟨by rw [Fibonacci.nthPull, Fibonacci.step_fst], ?_, ?_⟩
  · rw [Fibonacci.nthPull, fib_step_overflow c n hover]
    rw [Fibonacci.nthPull, Fibonacci.step_fst]
  · intro j hj
    obtain ⟨m, rfl⟩ : ∃ m, j = m + 2 := ⟨j - 2, by omega⟩
    rw [Fibonacci.nthPull, Fibonacci.nthPull, fib_second_state c n hover]
    exact fib_saturated_pull m

/-- C5 amended witness: at `seed = 2^63` the overflowing advance yields state
`(2^63, u64::MAX)`, the next pull yields the old `next = 2^63`, and pull 5 is
saturated. -/
theorem c5_fibonacci_saturation_witness :
    Fibonacci.step { curr := 2 ^ 63, next := 2 ^ 63 } =
      (2 ^ 63, { curr := 2 ^ 63, next := U64_MAX }) ∧
    Fibonacci.nthPull { curr := 2 ^ 63, next := 2 ^ 63 } 1 = 2 ^ 63 ∧
    Fibonacci.nthPull { curr := 2 ^ 63, next := 2 ^ 63 } 5 = U64_MAX := by
  have h := c5_fibonacci_saturation 0
  have hstep := h.2.2.1 (2 ^ 63) (2 ^ 63) (by decide)
  have hpulls := h.2.2.2 (2 ^ 63) (2 ^ 63) (by decide)
  exact ⟨hstep, hpulls.2.1, hpulls.2.2 5 (by decide)⟩

theorem fib_nthPull (seed : Nat) :
    ∀ (n k : Nat), Nat.fib (n + k + 2) * seed ≤ U64_MAX →
      Fibonacci.nthPull { curr := Nat.fib (k + 1) * seed, next := Nat.fib (k + 2) * seed } n =
        Nat.fib (n + k + 1) * seed := by
  intro n
  induction n with
  | zero =>
    intro k h
    rw [Fibonacci.nthPull, Fibonacci.step_fst]
    simp
  | succ n ih =>
    intro k h
    have hsum : Nat.fib (k + 1) * seed + Nat.fib (k + 2) * seed = Nat.fib (k + 3) * seed := by
      rw [← Nat.add_mul]
      have h3 : Nat.fib (k + 3) = Nat.fib (k + 1) + Nat.fib (k + 2) := by
        have := @Nat.fib_add_two (k + 1)
        have e : k + 1 + 2 = k + 3 := by omega
        rw [e] at this
        exact this
      rw [h3]
    have hle : Nat.fib (k + 1) * seed + Nat.fib (k + 2) * seed ≤ U64_MAX := by
      rw [hsum]
      calc Nat.fib (k + 3) * seed ≤ Nat.fib (n + 1 + k + 2) * seed :=
            Nat.mul_le_mul_right seed (Nat.fib_mono (by omega))
      _ ≤ U64_MAX := h
    rw [Fibonacci.nthPull, fib_step_no_overflow _ _ hle]
    simp only
    rw [hsum]
    have e2 : Nat.fib (k + 2) * seed = Nat.fib ((k + 1) + 1) * seed := by
      have : k + 2 = (k + 1) + 1 := by omega
      rw [this]
    have e3 : Nat.fib (k + 3) * seed = Nat.fib ((k + 1) + 2) * seed := by
      have : k + 3 = (k + 1) + 2 := by omega
      rw [this]
    rw [e2, e3, ih (k + 1) (by
      have : n + (k + 1) + 2 = n + 1 + k + 2 := by omega
      rw [this]
      exact h)]
    have : n + (k + 1) + 1 = n + 1 + k + 1 := by omega
    rw [this]

/-- C8: absent overflow, the `n`-th pull (0-indexed) of
`Fibonacci::from_millis(seed)` is `fib(n+1) * seed` milliseconds — the standard
Fibonacci recurrence scaled by the seed — and for seed 10 the first six pulls
are exactly 10, 10, 20, 30, 50, 80 milliseconds. -/
theorem c8_fibonacci (seed n : Nat) (h : Nat.fib (n + 2) * seed ≤ U64_MAX) :
    Fibonacci.nthPull (Fibonacci.from_millis seed) n = Nat.fib (n + 1) * seed ∧
    (Fibonacci.nthPull (Fibonacci.from_millis 10) 0 = 10 ∧
     Fibonacci.nthPull (Fibonacci.from_millis 10) 1 = 10 ∧
     Fibonacci.nthPull (Fibonacci.from_millis 10) 2 = 20 ∧
     Fibonacci.nthPull (Fibonacci.from_millis 10) 3 = 30 ∧
     Fibonacci.nthPull (Fibonacci.from_millis 10) 4 = 50 ∧
     Fibonacci.nthPull (Fibonacci.from_millis 10) 5 = 80) := by
  constructor
  · have h0 : Fibonacci.from_millis seed =
        { curr := Nat.fib 1 * seed, next := Nat.fib 2 * seed } := by
      rw [Fibonacci.from_millis]
      simp [Nat.fib_one, Nat.fib_two]
    rw [h0]
    have happ := fib_nthPull seed n 0 (by simpa using h)
    simpa using happ
  · exact ⟨rfl, rfl, rfl, rfl, rfl, rfl⟩

/-- C8 witness: at seed 10, pull 5 equals `fib(6) * 10 = 80`, together with the
six concrete pull values. -/
theorem c8_fibonacci_witness :
    Fibonacci.nthPull (Fibonacci.from_millis 10) 5 = Nat.fib 6 * 10 ∧
    Fibonacci.nthPull (Fibonacci.from_millis 10) 4 = 50 := by
  have h := c8_fibonacci 10 5 (by norm_num [U64_MAX, Nat.fib])
  exact ⟨h.1, h.2.2.2.2.2.1⟩

/-- C6 counterexample: the claim says `range_inclusive(min, max)` fails
construction when `min == max`, but `Range::from_millis_inclusive(5, 5)`
succeeds (rand accepts a closed range with equal endpoints). -/
theorem c6_construction_counterexample :
    Range.from_millis_inclusive 5 5 = some { distribution := { lo := 5, hi := 5 } } := rfl

/-- C6 (amended): Range construction fails synchronously at construction time
(programmer error, modelled as `none`, never deferred into a retry outcome)
exactly when `min >= max` for the exclusive constructor, and exactly when
`min > max` for the inclusive constructor; inclusive construction with
`min == max` succeeds. -/
theorem c6_range_construction (minimum maximum : Nat) :
    (Range.from_millis_exclusive minimum maximum = none ↔ maximum ≤ minimum) ∧
    (Range.from_millis_inclusive minimum maximum = none ↔ maximum < minimum) ∧
    (Range.from_millis_inclusive minimum minimum).isSome = true := by
  refine ⟨?_, ?_, ?_⟩
  · rw [Range.from_millis_exclusive, Uniform.new]
    split_ifs with hlt <;> simp <;> omega
  · rw [Range.from_millis_inclusive, Uniform.new_inclusive]
    split_ifs with hle <;> simp <;> omega
  · rw [Range.from_millis_inclusive, Uniform.new_inclusive]
    rw [if_pos (le_refl minimum)]
    rfl

/-- C10: inclusive construction with `min == max` succeeds (the failure branch
is unreachable whenever `min <= max`), every pull of the degenerate range
yields exactly that single value whatever the random draw is, and only
`min > max` makes inclusive construction fail. -/
theorem c10_range_inclusive_degenerate :
    (∀ v : Nat, Range.from_millis_inclusive v v = some { distribution := { lo := v, hi := v } } ∧
      ∀ r : Nat, Range.next { distribution := { lo := v, hi := v } } r = v) ∧
    (∀ mn mx : Nat, mn ≤ mx → (Range.from_millis_inclusive mn mx).isSome = true) ∧
    (∀ mn mx : Nat, Range.from_millis_inclusive mn mx = none ↔ mx < mn) := by
  refine ⟨fun v => ⟨?_, fun r => ?_⟩, fun mn mx hle => ?_, fun mn mx => ?_⟩
  · rw [Range.from_millis_inclusive, Uniform.new_inclusive, if_pos (le_refl v)]
    rfl
  · rw [Range.next, Uniform.sample]
    simp
    omega
  · rw [Range.from_millis_inclusive, Uniform.new_inclusive, if_pos hle]
    rfl
  · rw [Range.from_millis_inclusive, Uniform.new_inclusive]
    split_ifs with hle <;> simp <;> omega

/-- C10 witness: `range_inclusive(7, 7)` constructs successfully, pulls with
random draw 123 yield 7, and `range_inclusive(3, 9)` also constructs. -/
theorem c10_range_inclusive_degenerate_witness :
    Range.from_millis_inclusive 7 7 = some { distribution := { lo := 7, hi := 7 } } ∧
    Range.next { distribution := { lo := 7, hi := 7 } } 123 = 7 ∧
    (Range.from_millis_inclusive 3 9).isSome = true := by
  exact ⟨(c10_range_inclusive_degenerate.1 7).1,
    (c10_range_inclusive_degenerate.1 7).2 123,
    c10_range_inclusive_degenerate.2.1 3 9 (by decide)⟩

end RetryModel
